import Mathlib

/-!
Verification of the git-profile tool (src/main.rs) against its
specification. The profile store, lookup/selection logic and the command
handlers are embedded shallowly: TOML tables become association lists of
`TValue`, the `HashMap` collections become association lists with
overwrite-on-insert, and the (per-process random) iteration order of a
`HashMap` is made explicit by quantifying over permutations of the entry
list. External effects (the `git config` calls) are passed in as values.
-/

namespace GitProfile

/-- The Profile struct (main.rs lines 21-29). `name` carries
`#[serde(skip)]`: it is not read from a profile's table but set from the
table's key; serde gives it the default value `""` during deserialization. -/
structure Profile where
  name : String
  author : String
  email : String
  username : Option String
  url : Option String
deriving DecidableEq, Repr

/-- Profile::new (main.rs lines 39-47). -/
def Profile.new (profile_name author_name author_email : String) : Profile :=
  { name := profile_name, author := author_name, email := author_email,
    username := none, url := none }

/-- Profile::with_remote_url (main.rs lines 49-52). -/
def Profile.with_remote_url (p : Profile) (remote : String) : Profile :=
  { p with url := some remote }

/-- Profile::with_username (main.rs lines 54-57). -/
def Profile.with_username (p : Profile) (user : String) : Profile :=
  { p with username := some user }

/-- A TOML value, as far as the store's schema is concerned: a string, a
table (association list with distinct keys), or any other TOML value
(integer, array, ...), which the Profile deserializer rejects. -/
inductive TValue where
  | str (s : String)
  | table (kvs : List (String × TValue))
  | other

/-- Lookup in a TOML table (tables have pairwise distinct keys). -/
def tlookup (kvs : List (String × TValue)) (k : String) : Option TValue :=
  (kvs.find? (fun e => e.1 = k)).map (fun e => e.2)

/-- serde: a required `String` field: present and a string, else an error. -/
def reqStr (kvs : List (String × TValue)) (k : String) : Option String :=
  match tlookup kvs k with
  | some (.str s) => some s
  | _ => none

/-- serde: an `Option<String>` field: absent is fine (`none`), a string is
fine, any other value is a type error. -/
def optStr (kvs : List (String × TValue)) (k : String) : Option (Option String) :=
  match tlookup kvs k with
  | some (.str s) => some (some s)
  | none => some none
  | some _ => none

/-- `value.try_into::<Profile>()` (main.rs line 194): serde deserialization
of a Profile from a TOML value. The value must be a table; `author` and
`email` are required strings, `username` and `url` are optional strings;
`name` is skipped and defaulted to `""`. Any wrong-typed or missing
required field is an error (`none`). -/
def tryIntoProfile : TValue → Option Profile
  | .table kvs =>
    match reqStr kvs "author", reqStr kvs "email",
          optStr kvs "username", optStr kvs "url" with
    | some author, some email, some username, some url =>
        some { name := "", author := author, email := email,
               username := username, url := url }
    | _, _, _, _ => none
  | _ => none

/-- One iteration of the loop in parse_profiles (main.rs lines 193-197):
deserialize the entry's value and overwrite `name` with the entry's key. -/
def profileOfEntry (e : String × TValue) : Option Profile :=
  (tryIntoProfile e.2).map (fun p => { p with name := e.1 })

/-- parse_profiles (main.rs lines 185-200), applied to the sequence of
top-level entries in the order the intermediate `HashMap` iterates them
(an arbitrary permutation of the document's entries; theorems quantify
over it). Any entry that fails to deserialize fails the whole parse
(the `?` on `value.try_into()`). -/
def parse_profiles : List (String × TValue) → Option (List Profile)
  | [] => some []
  | e :: rest =>
    match profileOfEntry e, parse_profiles rest with
    | some p, some ps => some (p :: ps)
    | _, _ => none

/-- The state of the store file `~/.git_profiles` as load_profiles sees it:
absent, present but not parseable as TOML, or present and parsing as the
given top-level table (already in hash-map iteration order). -/
inductive StoreFile where
  | absent
  | unparsable
  | parsed (tbl : List (String × TValue))

/-- load_profiles (main.rs lines 202-215): an absent file is an empty
store; a file that fails TOML parsing, or whose entries fail to
deserialize, is an error. -/
def load_profiles : StoreFile → Option (List Profile)
  | .absent => some []
  | .unparsable => none
  | .parsed tbl => parse_profiles tbl

/-- Profile::as_map (main.rs lines 59-74): the table persisted for a
profile: `author` and `email` always, `username` and `url` only when
present. (In the source this is a `HashMap<String, String>` later turned
into a TOML table; only its key-value content matters.) -/
def Profile.as_map (p : Profile) : List (String × TValue) :=
  [("author", .str p.author), ("email", .str p.email)]
    ++ (match p.username with | some u => [("username", .str u)] | none => [])
    ++ (match p.url with | some u => [("url", .str u)] | none => [])

/-- `HashMap::insert`: overwrite the value under an existing key, else
append a new entry. -/
def hmInsert (m : List (String × TValue)) (k : String) (v : TValue) :
    List (String × TValue) :=
  if m.any (fun e => e.1 = k) then
    m.map (fun e => if e.1 = k then (k, v) else e)
  else m ++ [(k, v)]

/-- save_profiles (main.rs lines 217-236): build the name-to-table map by
inserting each profile in list order (`HashMap::insert` makes a later
profile with the same name overwrite an earlier one), then write the map
out as the TOML document. The result is the document's top-level table. -/
def save_profiles (ps : List Profile) : List (String × TValue) :=
  ps.foldl (fun acc p => hmInsert acc p.name (.table p.as_map)) []

/-- get_profile (main.rs lines 238-244): first profile with the exact name. -/
def get_profile (ps : List Profile) (profile_name : String) : Option Profile :=
  ps.find? (fun p => p.name = profile_name)

/-- get_profile_by_email (main.rs lines 246-252): first profile with the
exact email. -/
def get_profile_by_email (ps : List Profile) (email : String) : Option Profile :=
  ps.find? (fun p => p.email = email)

/-- get_profile_in_local_use (main.rs lines 254-262): the externally
configured email (`git config user.email`) is passed in as a value. -/
def get_profile_in_local_use (ps : List Profile) (externalEmail : String) :
    Option Profile :=
  get_profile_by_email ps externalEmail

/-- get_default_profile (main.rs lines 264-276): the profile matching the
external email if any, else the first loaded profile, else nothing. -/
def get_default_profile (ps : List Profile) (externalEmail : String) :
    Option Profile :=
  match get_profile_in_local_use ps externalEmail with
  | some p => some p
  | none => match ps with
    | [] => none
    | p :: _ => some p

/-- An external identity write performed through git_command. -/
inductive GitWrite where
  | setName (s : String)
  | setEmail (s : String)
deriving DecidableEq, Repr

/-- handle_use (main.rs lines 326-334): look the target up by exact name
(deliberately not via with_profile, so no default fallback); `expect`
panics when it is absent (`none`: the operation aborts with no writes),
otherwise the two `git config` writes run. -/
def handle_use (ps : List Profile) (target : String) : Option (List GitWrite) :=
  match get_profile ps target with
  | none => none
  | some p => some [.setName p.author, .setEmail p.email]

/-- Field lookup for the URL renderer: the profile's render data, viewed as
named fields. -/
def lookupField (fields : List (String × String)) (nm : String) : Option String :=
  (fields.find? (fun e => e.1 = nm)).map (fun e => e.2)

/-- Modelled from the spec: the URL template renderer. The source delegates
rendering to the external `ramhorns` crate (main.rs lines 343-344), whose
code is not part of this repository, so the renderer is modelled from the
spec's contract (section 4.3): a single left-to-right pass performs literal
substitution of a `\x7b\x7bname\x7d\x7d` placeholder by the field's value
when the name is a known field, applies no escaping to substituted values
(and does not rescan them), and leaves a placeholder whose name is not a
known field verbatim in the output. The first argument is the mode (false:
scanning literal text; true: inside a placeholder, whose name chars are
accumulated reversed in the second argument). -/
def renderAux (fields : List (String × String)) :
    Bool → List Char → List Char → List Char
  | false, _, [] => []
  | false, _, [c] => [c]
  | false, a, c :: c2 :: rest =>
    if c = '{' ∧ c2 = '{' then renderAux fields true [] rest
    else c :: renderAux fields false a (c2 :: rest)
  | true, acc, [] => '{' :: '{' :: acc.reverse
  | true, acc, [c] => '{' :: '{' :: (c :: acc).reverse
  | true, acc, c :: c2 :: rest =>
    if c = '}' ∧ c2 = '}' then
      match lookupField fields (String.mk acc.reverse) with
      | some v => v.data ++ renderAux fields false [] rest
      | none =>
        '{' :: '{' :: (acc.reverse ++ '}' :: '}' :: renderAux fields false [] rest)
    else renderAux fields true (c :: acc) (c2 :: rest)

/-- Modelled from the spec: `Template::new(urlspec)` followed by
`template.render(data)` (main.rs lines 343-344), with the render data given
as named fields. -/
def render (template : String) (fields : List (String × String)) : String :=
  String.mk (renderAux fields false [] template.data)

/-- Profile::render_data (main.rs lines 76-86), as the renderer's field
environment: an absent username becomes the empty string. -/
def Profile.render_data (p : Profile) (project : String) :
    List (String × String) :=
  [("username", match p.username with | some user => user | none => ""),
   ("project", project)]

/-- The built-in default template (main.rs line 340). -/
def default_urlspec : String := "git@github.com:{{username}}/{{project}}"

/-- The body of handle_url's closure (main.rs lines 336-346), for the
profile the `with_profile` resolution produced: the profile's own template
if set, else the built-in default, rendered with the profile's data. -/
def handle_url (p : Profile) (project_name : String) : String :=
  render (match p.url with | some url => url | none => default_urlspec)
    (p.render_data project_name)

/-- handle_new's profile construction (main.rs lines 355-363):
Profile::new, then with_username / with_remote_url for the flags given. -/
def handle_new_profile (profile_name author_name author_email : String)
    (username remote : Option String) : Profile :=
  let p := Profile.new profile_name author_name author_email
  let p := match username with | some user => p.with_username user | none => p
  match remote with | some url => p.with_remote_url url | none => p

/-- handle_new (main.rs lines 352-374): append the new profile to the
loaded set (no uniqueness check) and save. Result: the profile list passed
to save_profiles, and the document table it persists. -/
def handle_new (ps : List Profile) (profile_name author_name author_email : String)
    (username remote : Option String) :
    List Profile × List (String × TValue) :=
  let profile := handle_new_profile profile_name author_name author_email
    username remote
  let new_profiles := ps ++ [profile]
  (new_profiles, save_profiles new_profiles)

/-- The clap matches of the `new` subcommand: the three required
positionals and the values of the `--username` and `--remote` flags, which
clap stores under the arg ids "USERNAME" and "URL" (main.rs lines
112-128). -/
structure NewCmdMatches where
  profile : String
  author : String
  email : String
  username : Option String
  url : Option String
deriving DecidableEq, Repr

/-- `sub_matches.value_of(key)`: clap returns the value stored under the
arg id `key`, and `None` for an id no arg was registered with. -/
def NewCmdMatches.value_of (m : NewCmdMatches) (key : String) : Option String :=
  if key = "PROFILE" then some m.profile
  else if key = "AUTHOR" then some m.author
  else if key = "EMAIL" then some m.email
  else if key = "USERNAME" then m.username
  else if key = "URL" then m.url
  else none

/-- main's `new` branch (main.rs lines 421-428): unwrap the required
positionals (`expect` aborts on `None`, which cannot happen for required
args), read the flags — note the source reads `value_of("USER")`, not
`value_of("USERNAME")` — and call handle_new. -/
def main_new (m : NewCmdMatches) (ps : List Profile) :
    Option (List Profile × List (String × TValue)) :=
  match m.value_of "PROFILE", m.value_of "AUTHOR", m.value_of "EMAIL" with
  | some profile_name, some author_name, some author_email =>
    some (handle_new ps profile_name author_name author_email
      (m.value_of "USER") (m.value_of "URL"))
  | _, _, _ => none

/-- Startup outcome of main (main.rs lines 415-417): GitProfilesApp::new
propagates a load_profiles error, and main's `expect` then panics before
the subcommand dispatch, so no command handler runs; on success the
dispatch runs with the loaded profiles. -/
inductive MainOutcome where
  | abortedStartup
  | ran (profiles : List Profile)
deriving DecidableEq, Repr

/-- main's startup (main.rs lines 415-418): load, abort on error, else
dispatch with the loaded profiles. -/
def run_main (file : StoreFile) : MainOutcome :=
  match load_profiles file with
  | none => .abortedStartup
  | some ps => .ran ps

/-! ## Helper lemmas -/

/-- `List.find?` returns the first element satisfying the predicate. -/
theorem find?_first_of_split {α : Type} (pred : α → Bool) (pre : List α) (p : α)
    (post : List α) (hpre : ∀ r ∈ pre, pred r = false) (hp : pred p = true) :
    List.find? pred (pre ++ p :: post) = some p := by
  induction pre with
  | nil => simp [List.find?_cons_of_pos, hp]
  | cons a l ih =>
    rw [List.cons_append, List.find?_cons_of_neg]
    · exact ih fun r hr => hpre r (List.mem_cons_of_mem a hr)
    · simp [hpre a (List.mem_cons_self a l)]

end GitProfile

namespace GitProfile

/-- C8: get_profile returns the first profile whose name is exactly equal to
the query (no normalization, no prefix matching), and nothing when no
profile's name equals the query; any hit has exactly the queried name and
comes from the store. -/
theorem c8_find_by_name_exact (ps : List Profile) (q : String) :
    (∀ pre p post, ps = pre ++ p :: post → (∀ r ∈ pre, r.name ≠ q) →
      p.name = q → get_profile ps q = some p)
    ∧ ((∀ p ∈ ps, p.name ≠ q) → get_profile ps q = none)
    ∧ (∀ p, get_profile ps q = some p → p.name = q ∧ p ∈ ps) := by
  refine ⟨?_, ?_, ?_⟩
  · intro pre p post hsplit hpre hp
    subst hsplit
    exact find?_first_of_split _ pre p post
      (fun r hr => by simpa using hpre r hr) (by simpa using hp)
  · intro h
    exact List.find?_eq_none.2 fun p hp => by simpa using h p hp
  · intro p hp
    exact ⟨by simpa using List.find?_some hp, List.mem_of_find?_eq_some hp⟩

/-- C4: default resolution returns the first profile whose email equals the
externally configured email whenever one exists (even when it is not first
in load order); otherwise the first profile in load order when the store is
non-empty; and nothing on an empty store. -/
theorem c4_default_resolution (ps : List Profile) (ext : String) :
    (∀ pre p post, ps = pre ++ p :: post → (∀ r ∈ pre, r.email ≠ ext) →
      p.email = ext → get_default_profile ps ext = some p)
    ∧ ((∀ p ∈ ps, p.email ≠ ext) → ∀ p0 rest, ps = p0 :: rest →
      get_default_profile ps ext = some p0)
    ∧ get_default_profile [] ext = none := by
  refine ⟨?_, ?_, rfl⟩
  · intro pre p post hsplit hpre hp
    have hfind : get_profile_by_email ps ext = some p := by
      subst hsplit
      exact find?_first_of_split _ pre p post
        (fun r hr => by simpa using hpre r hr) (by simpa using hp)
    simp [get_default_profile, get_profile_in_local_use, hfind]
  · intro h p0 rest hsplit
    have hfind : get_profile_by_email ps ext = none :=
      List.find?_eq_none.2 fun p hp => by simpa using h p hp
    subst hsplit
    simp [get_default_profile, get_profile_in_local_use, hfind]

/-- C5: `use` with a name matching no profile aborts (the `expect` panics)
before either `git config` write runs: no external identity write happens,
and no fallback to a default profile is consulted (handle_use only ever
calls get_profile). -/
theorem c5_use_absent_name_no_writes (ps : List Profile) (target : String)
    (h : ∀ p ∈ ps, p.name ≠ target) :
    handle_use ps target = none := by
  have hfind : get_profile ps target = none :=
    List.find?_eq_none.2 fun p hp => by simpa using h p hp
  simp [handle_use, hfind]

theorem c5_use_absent_name_no_writes_witness :
    handle_use [Profile.new "work" "Dev One" "dev@example.com"] "home" = none :=
  c5_use_absent_name_no_writes _ _ (by decide)

/-- Any failing entry fails the whole parse (the `?` inside the loop). -/
theorem parse_profiles_fail {l : List (String × TValue)} {e : String × TValue}
    (he : e ∈ l) (hfail : profileOfEntry e = none) :
    parse_profiles l = none := by
  induction l with
  | nil => cases he
  | cons a rest ih =>
    rcases List.mem_cons.1 he with rfl | hmem
    · simp [parse_profiles, hfail]
    · cases ha : profileOfEntry a <;> simp [parse_profiles, ha, ih hmem]

/-- C6: load returns the empty profile set when the store file is absent
(absence is not an error); a malformed file, or a profile entry whose
fields fail to deserialize (wrong type or missing required field), is an
error; and a load error aborts startup before any command handler runs. -/
theorem c6_load_error_handling :
    load_profiles .absent = some []
    ∧ load_profiles .unparsable = none
    ∧ (∀ tbl e, e ∈ tbl → profileOfEntry e = none →
      load_profiles (.parsed tbl) = none)
    ∧ (∀ f, load_profiles f = none → run_main f = .abortedStartup) := by
  refine ⟨rfl, rfl, ?_, ?_⟩
  · intro tbl e he hfail
    exact parse_profiles_fail he hfail
  · intro f hf
    simp [run_main, hf]

/-- C1 (the code's behavior at the failing input): main's `new` dispatch
reads the `--username` value with `value_of("USER")` (main.rs line 426)
although the flag is registered under the arg id "USERNAME" (main.rs line
121), and clap returns None for an unregistered id, so the supplied
`--username` value never reaches the constructed profile: with
`--username devone` on the command line, the profile constructed and passed
to save has `username = none`. -/
theorem c1_new_drops_username :
    (NewCmdMatches.mk "work" "Dev One" "dev@example.com" (some "devone") none).username
      = some "devone"
    ∧ main_new (NewCmdMatches.mk "work" "Dev One" "dev@example.com" (some "devone") none) []
      = some ([Profile.mk "work" "Dev One" "dev@example.com" none none],
              save_profiles [Profile.mk "work" "Dev One" "dev@example.com" none none]) :=
  ⟨rfl, rfl⟩

/-- C3: render substitutes the field values for the tokens of the default
template literally, for arbitrary values (so in particular without any
escaping of the substituted values); a placeholder whose name is not a
render-data field is left verbatim in the output; and the spec's concrete
example holds. -/
theorem c3_render_substitution (u pr : String) :
    render "git@github.com:{{username}}/{{project}}"
        [("username", u), ("project", pr)]
      = "git@github.com:" ++ u ++ "/" ++ pr
    ∧ render "{{username}}@{{host}}/{{project}}"
        [("username", u), ("project", pr)]
      = u ++ "@{{host}}/" ++ pr
    ∧ render "git@github.com:{{username}}/{{project}}"
        [("username", "alice"), ("project", "repo")]
      = "git@github.com:alice/repo" := by
  refine ⟨?_, ?_, by decide⟩
  · apply String.ext
    simp [render, renderAux, lookupField, String.data_append]
  · apply String.ext
    simp [render, renderAux, lookupField, String.data_append]

/-- C9: for a profile whose username is absent, render_data supplies the
empty string for the username field, so rendering the template
"\x7b\x7busername\x7d\x7d/\x7b\x7bproject\x7d\x7d" with project "x" yields
"/x". -/
theorem c9_absent_username_renders_empty (p : Profile) (hu : p.username = none)
    (hurl : p.url = some "{{username}}/{{project}}") :
    handle_url p "x" = "/x" := by
  have hdata : p.render_data "x" = [("username", ""), ("project", "x")] := by
    simp [Profile.render_data, hu]
  simp only [handle_url, hurl, hdata]
  decide

theorem c9_absent_username_renders_empty_witness :
    handle_url (Profile.mk "noname" "Dev One" "dev@example.com" none
      (some "{{username}}/{{project}}")) "x" = "/x" :=
  c9_absent_username_renders_empty _ rfl rfl

/-! ## Store round-trip machinery -/

/-- Deserializing the table as_map persists recovers every field; the name
gets serde's skip-default. -/
theorem tryInto_as_map (p : Profile) :
    tryIntoProfile (.table p.as_map)
      = some (Profile.mk "" p.author p.email p.username p.url) := by
  obtain ⟨nm, a, e, u, r⟩ := p
  cases u <;> cases r <;>
    simp [tryIntoProfile, reqStr, optStr, tlookup, Profile.as_map, List.find?]

/-- Parsing an entry persisted from a profile recovers the profile, with
the entry's key as its name. -/
theorem profileOfEntry_as_map (k : String) (p : Profile) :
    profileOfEntry (k, .table p.as_map)
      = some (Profile.mk k p.author p.email p.username p.url) := by
  simp [profileOfEntry, tryInto_as_map]

theorem profileOfEntry_as_map_self (p : Profile) :
    profileOfEntry (p.name, .table p.as_map) = some p := by
  rw [profileOfEntry_as_map]

/-- A parsed profile's name is its entry's key. -/
theorem profileOfEntry_name {e : String × TValue} {p : Profile}
    (h : profileOfEntry e = some p) : p.name = e.1 := by
  unfold profileOfEntry at h
  cases ht : tryIntoProfile e.2 with
  | none => rw [ht] at h; simp at h
  | some q => rw [ht] at h; simp at h; rw [← h]

theorem parse_profiles_cons_some {e : String × TValue}
    {rest : List (String × TValue)} {p : Profile} {ps : List Profile}
    (he : profileOfEntry e = some p) (hr : parse_profiles rest = some ps) :
    parse_profiles (e :: rest) = some (p :: ps) := by
  simp [parse_profiles, he, hr]

theorem parse_profiles_cons_inv {e : String × TValue}
    {rest : List (String × TValue)} {psAll : List Profile}
    (h : parse_profiles (e :: rest) = some psAll) :
    ∃ p ps, profileOfEntry e = some p ∧ parse_profiles rest = some ps
      ∧ psAll = p :: ps := by
  cases he : profileOfEntry e with
  | none => simp [parse_profiles, he] at h
  | some p =>
    cases hr : parse_profiles rest with
    | none => simp [parse_profiles, he, hr] at h
    | some ps =>
      refine ⟨p, ps, rfl, rfl, ?_⟩
      simp [parse_profiles, he, hr] at h
      exact h.symm

/-- The parsed profiles' names are the document's keys, in parse order. -/
theorem parse_profiles_names {l : List (String × TValue)} :
    ∀ {ps : List Profile}, parse_profiles l = some ps →
      ps.map Profile.name = l.map Prod.fst := by
  induction l with
  | nil => intro ps h; simp [parse_profiles] at h; simp [← h]
  | cons e rest ih =>
    intro ps h
    obtain ⟨p, qs, he, hr, rfl⟩ := parse_profiles_cons_inv h
    simp [ih hr, profileOfEntry_name he]

/-- Parsing a permuted entry sequence yields a permuted profile list. -/
theorem parse_profiles_perm {l1 l2 : List (String × TValue)} (h : l1.Perm l2) :
    ∀ {ps1 : List Profile}, parse_profiles l1 = some ps1 →
      ∃ ps2, parse_profiles l2 = some ps2 ∧ ps1.Perm ps2 := by
  induction h with
  | nil => intro ps1 h1; exact ⟨ps1, h1, List.Perm.refl _⟩
  | cons x _ ih =>
    intro ps1 h1
    obtain ⟨p, qs, hx, ht, rfl⟩ := parse_profiles_cons_inv h1
    obtain ⟨qs2, ht2, hperm⟩ := ih ht
    exact ⟨p :: qs2, parse_profiles_cons_some hx ht2, hperm.cons p⟩
  | swap x y l =>
    intro ps1 h1
    obtain ⟨py, qs1, hy, h1', rfl⟩ := parse_profiles_cons_inv h1
    obtain ⟨px, qs, hx, hl, rfl⟩ := parse_profiles_cons_inv h1'
    exact ⟨px :: py :: qs,
      parse_profiles_cons_some hx (parse_profiles_cons_some hy hl),
      List.Perm.swap px py qs⟩
  | trans _ _ ih1 ih2 =>
    intro ps1 h1
    obtain ⟨ps2, h2, p12⟩ := ih1 h1
    obtain ⟨ps3, h3, p23⟩ := ih2 h2
    exact ⟨ps3, h3, p12.trans p23⟩

/-- Inserting a fresh key appends the entry. -/
theorem hmInsert_not_mem {m : List (String × TValue)} {k : String} (v : TValue)
    (h : ∀ e ∈ m, e.1 ≠ k) : hmInsert m k v = m ++ [(k, v)] := by
  have hany : m.any (fun e => e.1 = k) = false := by
    rw [List.any_eq_false]
    intro e he
    simpa using h e he
  simp [hmInsert, hany]

theorem foldl_save_fresh :
    ∀ (ps : List Profile) (acc : List (String × TValue)),
      (ps.map Profile.name).Nodup →
      (∀ p ∈ ps, ∀ e ∈ acc, e.1 ≠ p.name) →
      ps.foldl (fun acc p => hmInsert acc p.name (.table p.as_map)) acc
        = acc ++ ps.map (fun p => (p.name, TValue.table p.as_map))
  | [], acc, _, _ => by simp
  | p :: rest, acc, hnodup, hfresh => by
    have hnd := List.nodup_cons.1 hnodup
    have hfresh2 : ∀ q ∈ rest, ∀ e ∈ acc ++ [(p.name, TValue.table p.as_map)],
        e.1 ≠ q.name := by
      intro q hq e he
      rcases List.mem_append.1 he with h1 | h1
      · exact hfresh q (List.mem_cons_of_mem p hq) e h1
      · have he2 : e = (p.name, TValue.table p.as_map) := by simpa using h1
        subst he2
        intro hcontra
        have hc2 : p.name = q.name := hcontra
        exact hnd.1 (by rw [hc2]; exact List.mem_map_of_mem Profile.name hq)
    have hrec := foldl_save_fresh rest (acc ++ [(p.name, TValue.table p.as_map)])
      hnd.2 hfresh2
    rw [List.foldl_cons,
      hmInsert_not_mem _ (fun e he => hfresh p (List.mem_cons_self p rest) e he),
      hrec]
    simp

/-- On a profile list without name collisions, save writes exactly one
entry per profile, in list order. -/
theorem save_profiles_of_nodup (ps : List Profile)
    (h : (ps.map Profile.name).Nodup) :
    save_profiles ps = ps.map (fun p => (p.name, TValue.table p.as_map)) := by
  simpa [save_profiles] using foldl_save_fresh ps [] h (by simp)

/-- Parsing the entries save writes recovers the profiles. -/
theorem parse_profiles_map (ps : List Profile) :
    parse_profiles (ps.map (fun p => (p.name, TValue.table p.as_map)))
      = some ps := by
  induction ps with
  | nil => rfl
  | cons p rest ih =>
    exact parse_profiles_cons_some (profileOfEntry_as_map_self p) ih

/-- C2: for a store document with pairwise distinct profile names, load
(in any hash-iteration order) followed by save followed by load (again in
any hash-iteration order) reproduces the same profiles field-for-field up
to order. -/
theorem c2_load_save_load_roundtrip
    (doc ord1 ord2 : List (String × TValue)) (ps : List Profile)
    (hkeys : (doc.map Prod.fst).Nodup)
    (h1 : ord1.Perm doc)
    (hp : parse_profiles ord1 = some ps)
    (h2 : ord2.Perm (save_profiles ps)) :
    ∃ ps2, parse_profiles ord2 = some ps2 ∧ ps2.Perm ps := by
  have hnames : ps.map Profile.name = ord1.map Prod.fst := parse_profiles_names hp
  have hnodup : (ps.map Profile.name).Nodup := by
    rw [hnames]
    exact (h1.map Prod.fst).nodup_iff.2 hkeys
  rw [save_profiles_of_nodup ps hnodup] at h2
  obtain ⟨ps2, hp2, hperm⟩ := parse_profiles_perm h2.symm (parse_profiles_map ps)
  exact ⟨ps2, hp2, hperm.symm⟩

theorem c2_load_save_load_roundtrip_witness :
    ∃ ps2, parse_profiles (save_profiles [Profile.mk "a" "A" "a@x" none none])
        = some ps2
      ∧ ps2.Perm [Profile.mk "a" "A" "a@x" none none] :=
  c2_load_save_load_roundtrip
    [("a", .table [("author", .str "A"), ("email", .str "a@x")])]
    [("a", .table [("author", .str "A"), ("email", .str "a@x")])]
    (save_profiles [Profile.mk "a" "A" "a@x" none none])
    [Profile.mk "a" "A" "a@x" none none]
    (by decide) (List.Perm.refl _) rfl (List.Perm.refl _)

/-! ## Duplicate-name (last-write-wins) machinery -/

/-- handle_new's construction is the record of the given fields. -/
theorem handle_new_profile_eq (n a em : String) (u r : Option String) :
    handle_new_profile n a em u r = Profile.mk n a em u r := by
  cases u <;> cases r <;> rfl

theorem save_profiles_append (l : List Profile) (p : Profile) :
    save_profiles (l ++ [p])
      = hmInsert (save_profiles l) p.name (.table p.as_map) := by
  simp [save_profiles, List.foldl_append]

theorem tlookup_cons_ne {e : String × TValue} {rest : List (String × TValue)}
    {k : String} (he : e.1 ≠ k) : tlookup (e :: rest) k = tlookup rest k := by
  simp [tlookup, List.find?_cons_of_neg, he]

theorem tlookup_cons_eq {e : String × TValue} {rest : List (String × TValue)}
    {k : String} (he : e.1 = k) : tlookup (e :: rest) k = some e.2 := by
  simp [tlookup, List.find?_cons_of_pos, he]

/-- `HashMap::insert` followed by lookup of the inserted key yields the
inserted value (whether or not the key was present). -/
theorem tlookup_hmInsert_self (m : List (String × TValue)) (k : String)
    (v : TValue) : tlookup (hmInsert m k v) k = some v := by
  induction m with
  | nil => simp [hmInsert, tlookup]
  | cons e rest ih =>
    unfold hmInsert at ih ⊢
    by_cases he : e.1 = k
    · rw [if_pos (by simp [List.any_cons, he])]
      simp only [List.map_cons, if_pos he]
      exact tlookup_cons_eq rfl
    · by_cases hr : rest.any (fun x => x.1 = k) = true
      · rw [if_pos (by simp [List.any_cons, hr])]
        rw [if_pos hr] at ih
        simp only [List.map_cons, if_neg he]
        rw [tlookup_cons_ne he]
        exact ih
      · rw [if_neg (by simp [List.any_cons, he]; simpa using hr)]
        rw [if_neg hr] at ih
        rw [List.cons_append, tlookup_cons_ne he]
        exact ih

/-- Every entry hmInsert produces from profile tables is a profile table. -/
theorem hmInsert_shaped {m : List (String × TValue)} {k : String} {p : Profile}
    (hm : ∀ e ∈ m, ∃ w : Profile, e.2 = TValue.table w.as_map) :
    ∀ x ∈ hmInsert m k (.table p.as_map),
      ∃ w : Profile, x.2 = TValue.table w.as_map := by
  intro x hx
  unfold hmInsert at hx
  by_cases hany : m.any (fun q => q.1 = k) = true
  · rw [if_pos hany] at hx
    obtain ⟨y, hy, rfl⟩ := List.mem_map.1 hx
    by_cases hyk : y.1 = k
    · simp only [if_pos hyk]
      exact ⟨p, rfl⟩
    · simp only [if_neg hyk]
      exact hm y hy
  · rw [if_neg hany] at hx
    rcases List.mem_append.1 hx with h1 | h1
    · exact hm _ h1
    · have hx2 : x = (k, TValue.table p.as_map) := by simpa using h1
      subst hx2
      exact ⟨p, rfl⟩

/-- Every entry save_profiles writes is some profile's table. -/
theorem save_profiles_shaped (l : List Profile) :
    ∀ e ∈ save_profiles l, ∃ w : Profile, e.2 = TValue.table w.as_map := by
  suffices haux : ∀ (l : List Profile) (acc : List (String × TValue)),
      (∀ e ∈ acc, ∃ w : Profile, e.2 = TValue.table w.as_map) →
      ∀ e ∈ l.foldl (fun acc p => hmInsert acc p.name (.table p.as_map)) acc,
        ∃ w : Profile, e.2 = TValue.table w.as_map by
    exact haux l [] (by simp)
  intro l
  induction l with
  | nil => intro acc hacc e he; exact hacc e he
  | cons p rest ih =>
    intro acc hacc e he
    rw [List.foldl_cons] at he
    exact ih _ (hmInsert_shaped hacc) e he

/-- A document all of whose entries deserialize parses successfully. -/
theorem parse_profiles_total {l : List (String × TValue)}
    (h : ∀ e ∈ l, ∃ p, profileOfEntry e = some p) :
    ∃ ps, parse_profiles l = some ps := by
  induction l with
  | nil => exact ⟨[], rfl⟩
  | cons e rest ih =>
    obtain ⟨p, hp⟩ := h e (List.mem_cons_self e rest)
    obtain ⟨ps, hps⟩ := ih fun x hx => h x (List.mem_cons_of_mem e hx)
    exact ⟨p :: ps, parse_profiles_cons_some hp hps⟩

/-- The parsed profiles are exactly the deserializations of the document's
entries. -/
theorem parse_profiles_mem {l : List (String × TValue)} :
    ∀ {ps : List Profile}, parse_profiles l = some ps → ∀ {x : Profile},
      (x ∈ ps ↔ ∃ e ∈ l, profileOfEntry e = some x) := by
  induction l with
  | nil => intro ps h x; simp [parse_profiles] at h; subst h; simp
  | cons e rest ih =>
    intro ps h x
    obtain ⟨p, qs, he, hr, rfl⟩ := parse_profiles_cons_inv h
    constructor
    · intro hx
      rcases List.mem_cons.1 hx with rfl | hx2
      · exact ⟨e, List.mem_cons_self e rest, he⟩
      · obtain ⟨e2, he2, hpe⟩ := (ih hr).1 hx2
        exact ⟨e2, List.mem_cons_of_mem e he2, hpe⟩
    · rintro ⟨e2, he2, hpe⟩
      rcases List.mem_cons.1 he2 with rfl | he2m
      · rw [he] at hpe
        cases Option.some.inj hpe
        exact List.mem_cons_self _ _
      · exact List.mem_cons_of_mem p ((ih hr).2 ⟨e2, he2m, hpe⟩)

/-- In a table with pairwise distinct keys, two entries with the same key
are the same entry. -/
theorem mem_eq_of_nodup_keys {l : List (String × TValue)}
    (hnd : (l.map Prod.fst).Nodup) {e1 e2 : String × TValue}
    (h1 : e1 ∈ l) (h2 : e2 ∈ l) (hk : e1.1 = e2.1) : e1 = e2 := by
  induction l with
  | nil => cases h1
  | cons a rest ih =>
    have hnd2 := List.nodup_cons.1 hnd
    rcases List.mem_cons.1 h1 with rfl | h1m
    · rcases List.mem_cons.1 h2 with rfl | h2m
      · rfl
      · exact absurd (hk ▸ List.mem_map_of_mem Prod.fst h2m) hnd2.1
    · rcases List.mem_cons.1 h2 with rfl | h2m
      · exact absurd (hk ▸ List.mem_map_of_mem Prod.fst h1m) hnd2.1
      · exact ih hnd2.2 h1m h2m

theorem tlookup_mem {l : List (String × TValue)} {k : String} {v : TValue}
    (h : tlookup l k = some v) : (k, v) ∈ l := by
  unfold tlookup at h
  cases hf : List.find? (fun e => e.1 = k) l with
  | none => rw [hf] at h; cases h
  | some e =>
    rw [hf] at h
    have hm := List.mem_of_find?_eq_some hf
    have hp : e.1 = k := by simpa using List.find?_some hf
    have hv : e.2 = v := by simpa using h
    have he : (k, v) = e := by
      obtain ⟨a, b⟩ := e
      simp only at hp hv
      rw [hp, hv]
    rw [he]
    exact hm

theorem hmInsert_keys (m : List (String × TValue)) (k : String) (v : TValue) :
    (hmInsert m k v).map Prod.fst
      = if m.any (fun e => e.1 = k) then m.map Prod.fst
        else m.map Prod.fst ++ [k] := by
  unfold hmInsert
  by_cases h : m.any (fun e => e.1 = k) = true
  · rw [if_pos h, if_pos h, List.map_map]
    apply List.map_congr_left
    intro e he
    by_cases he2 : e.1 = k <;> simp [he2]
  · rw [if_neg h, if_neg h]
    simp

/-- The document save_profiles writes has pairwise distinct keys: it is a
map. -/
theorem save_profiles_keys_nodup (l : List Profile) :
    ((save_profiles l).map Prod.fst).Nodup := by
  suffices haux : ∀ (l : List Profile) (acc : List (String × TValue)),
      (acc.map Prod.fst).Nodup →
      (((l.foldl (fun acc p => hmInsert acc p.name (.table p.as_map)) acc).map
        Prod.fst)).Nodup by
    exact haux l [] List.nodup_nil
  intro l
  induction l with
  | nil => intro acc h; exact h
  | cons p rest ih =>
    intro acc h
    rw [List.foldl_cons]
    refine ih _ ?_
    rw [hmInsert_keys]
    by_cases hany : acc.any (fun e => e.1 = p.name) = true
    · rw [if_pos hany]; exact h
    · rw [if_neg hany]
      rw [(List.perm_append_singleton p.name (acc.map Prod.fst)).nodup_iff]
      rw [List.nodup_cons]
      refine ⟨?_, h⟩
      intro hmem
      obtain ⟨e, he, hke⟩ := List.mem_map.1 hmem
      exact hany (List.any_eq_true.2 ⟨e, he, by simp [hke]⟩)

/-- C7: creating a profile whose name is already borne by a profile q in
the store appends it with no uniqueness check (the list passed to save is
ps ++ [new]); the persisted document maps that name to the later-created
profile's table (HashMap::insert overwrites); and any subsequent load (in
any hash-iteration order) yields the later profile's fields under that
name, the earlier profile being gone. -/
theorem c7_duplicate_name_last_wins (ps : List Profile) (q : Profile)
    (n a em : String) (u r : Option String)
    (hq : q ∈ ps) (hname : q.name = n)
    (ord : List (String × TValue))
    (hord : ord.Perm (handle_new ps n a em u r).2) :
    (handle_new ps n a em u r).1 = ps ++ [handle_new_profile n a em u r]
    ∧ tlookup (handle_new ps n a em u r).2 n
        = some (.table (handle_new_profile n a em u r).as_map)
    ∧ ∃ ps2, parse_profiles ord = some ps2
        ∧ handle_new_profile n a em u r ∈ ps2
        ∧ ∀ x ∈ ps2, x.name = n → x = handle_new_profile n a em u r := by
  set P := handle_new_profile n a em u r with hP
  have hPname : P.name = n := by rw [hP, handle_new_profile_eq]
  have hdoc : (handle_new ps n a em u r).2 = save_profiles (ps ++ [P]) := rfl
  have hlook : tlookup (save_profiles (ps ++ [P])) n = some (.table P.as_map) := by
    rw [save_profiles_append, ← hPname]
    exact tlookup_hmInsert_self _ _ _
  rw [hdoc] at hord
  have htotal : ∀ e ∈ ord, ∃ x, profileOfEntry e = some x := by
    intro e he
    obtain ⟨w, hw⟩ := save_profiles_shaped (ps ++ [P]) e (hord.mem_iff.1 he)
    refine ⟨Profile.mk e.1 w.author w.email w.username w.url, ?_⟩
    have hpe := profileOfEntry_as_map e.1 w
    rw [← hw] at hpe
    exact hpe
  obtain ⟨ps2, hps2⟩ := parse_profiles_total htotal
  have hentry : (n, TValue.table P.as_map) ∈ save_profiles (ps ++ [P]) :=
    tlookup_mem hlook
  have hentry_ord : (n, TValue.table P.as_map) ∈ ord := hord.mem_iff.2 hentry
  have hPentry : profileOfEntry (n, TValue.table P.as_map) = some P := by
    rw [← hPname]
    exact profileOfEntry_as_map_self P
  have hPmem : P ∈ ps2 := (parse_profiles_mem hps2).2 ⟨_, hentry_ord, hPentry⟩
  have huniq : ∀ x ∈ ps2, x.name = n → x = P := by
    intro x hx hxn
    obtain ⟨e2, he2, hpe2⟩ := (parse_profiles_mem hps2).1 hx
    have he2key : e2.1 = n := (profileOfEntry_name hpe2).symm.trans hxn
    have he2doc : e2 ∈ save_profiles (ps ++ [P]) := hord.mem_iff.1 he2
    have he2eq : e2 = (n, TValue.table P.as_map) :=
      mem_eq_of_nodup_keys (save_profiles_keys_nodup (ps ++ [P])) he2doc hentry
        he2key
    rw [he2eq, hPentry] at hpe2
    exact (Option.some.inj hpe2).symm
  exact ⟨rfl, hlook, ⟨ps2, hps2, hPmem, huniq⟩⟩

theorem c7_duplicate_name_last_wins_witness :
    (handle_new [Profile.mk "work" "Old Name" "old@x" none none]
        "work" "New Name" "new@x" (some "newu") none).1
      = [Profile.mk "work" "Old Name" "old@x" none none]
        ++ [handle_new_profile "work" "New Name" "new@x" (some "newu") none]
    ∧ tlookup (handle_new [Profile.mk "work" "Old Name" "old@x" none none]
        "work" "New Name" "new@x" (some "newu") none).2 "work"
      = some (.table
          (handle_new_profile "work" "New Name" "new@x" (some "newu") none).as_map)
    ∧ ∃ ps2, parse_profiles
          (handle_new [Profile.mk "work" "Old Name" "old@x" none none]
            "work" "New Name" "new@x" (some "newu") none).2 = some ps2
        ∧ handle_new_profile "work" "New Name" "new@x" (some "newu") none ∈ ps2
        ∧ ∀ x ∈ ps2, x.name = "work"
          → x = handle_new_profile "work" "New Name" "new@x" (some "newu") none :=
  c7_duplicate_name_last_wins
    [Profile.mk "work" "Old Name" "old@x" none none]
    (Profile.mk "work" "Old Name" "old@x" none none)
    "work" "New Name" "new@x" (some "newu") none
    (List.mem_cons_self _ _) rfl
    (handle_new [Profile.mk "work" "Old Name" "old@x" none none]
      "work" "New Name" "new@x" (some "newu") none).2
    (List.Perm.refl _)

/-- C10: load's result order is not fixed by the document: the parsed
entries pass through an unordered HashMap, so for one and the same
top-level table (with distinct keys) two admissible iteration orders yield
the parsed profiles in different relative orders, and consequently a
different "first profile in load order": default resolution (when no email
matches the external identity) and first-match email lookup (here two
profiles share the email) resolve to different profiles. -/
theorem c10_load_order_not_deterministic :
    ∃ (tbl ord1 ord2 : List (String × TValue)) (ps1 ps2 : List Profile)
      (ext : String),
      (tbl.map Prod.fst).Nodup
      ∧ ord1.Perm tbl ∧ ord2.Perm tbl
      ∧ parse_profiles ord1 = some ps1 ∧ parse_profiles ord2 = some ps2
      ∧ ps1 ≠ ps2
      ∧ get_default_profile ps1 ext ≠ get_default_profile ps2 ext
      ∧ get_profile_by_email ps1 "shared@x" ≠ get_profile_by_email ps2 "shared@x" := by
  refine ⟨[("a", .table [("author", .str "A"), ("email", .str "shared@x")]),
           ("b", .table [("author", .str "B"), ("email", .str "shared@x")])],
          [("a", .table [("author", .str "A"), ("email", .str "shared@x")]),
           ("b", .table [("author", .str "B"), ("email", .str "shared@x")])],
          [("b", .table [("author", .str "B"), ("email", .str "shared@x")]),
           ("a", .table [("author", .str "A"), ("email", .str "shared@x")])],
          [Profile.mk "a" "A" "shared@x" none none,
           Profile.mk "b" "B" "shared@x" none none],
          [Profile.mk "b" "B" "shared@x" none none,
           Profile.mk "a" "A" "shared@x" none none],
          "nomatch", ?_, List.Perm.refl _, ?_, rfl, rfl, ?_, ?_, ?_⟩
  · decide
  · exact (List.Perm.swap _ _ []).symm
  · decide
  · decide
  · decide

end GitProfile


